import Mathlib

/-!
# Verification of the `an-zipper` crate

Shallow embedding of `src/src/lib.rs` and `src/src/list/mod.rs`: a
singly-linked stack-backed list (`List`) and a zipper built from a pair of
such lists (`ZipList`).  Rust's `Box` is the identity in this embedding,
`Option<Box<Node<T>>>` becomes `Option (Node T)`, `usize` becomes `Nat`
(with Rust's `len - 1` rendered as truncated `Nat` subtraction), and
`&mut self` methods become functions returning the updated state (paired
with the Rust return value where there is one).
-/

/-- Lean's built-in list type, aliased because the embedded structure reuses
the name `List` inside the `AnZipper` namespace. -/
abbrev BList (T : Type) := List T

namespace AnZipper

/-- `struct Node<T> { elem: T, next: Link<T> }` (lib.rs:66-69). -/
inductive Node (T : Type) where
  | mk (elem : T) (next : Option (Node T)) : Node T

/-- `type Link<T> = Option<Box<Node<T>>>` (lib.rs:63). -/
abbrev Link (T : Type) := Option (Node T)

/-- Field accessor `node.elem`. -/
def Node.elem {T : Type} : Node T → T
  | .mk e _ => e

/-- Field accessor `node.next`. -/
def Node.next {T : Type} : Node T → Link T
  | .mk _ n => n

/-- `Node::new(elem)` (lib.rs:98): a node with no tail. -/
def Node.new {T : Type} (elem : T) : Node T := .mk elem none

/-- Number of nodes reachable from this node, itself included.  The chain is
finite by construction, mirroring the acyclicity of the exclusively-owned
Rust chain. -/
def Node.length {T : Type} : Node T → Nat
  | .mk _ none => 1
  | .mk _ (some n) => n.length + 1

/-- Number of nodes reachable from a link. -/
def linkLen {T : Type} : Link T → Nat
  | none => 0
  | some n => n.length

/-- Elements of the chain starting at this node, in head-to-tail order. -/
def Node.elems {T : Type} : Node T → BList T
  | .mk e none => [e]
  | .mk e (some n) => e :: n.elems

/-- Elements reachable from a link, in head-to-tail order. -/
def linkElems {T : Type} : Link T → BList T
  | none => []
  | some n => n.elems

/-- `struct List<T> { head: Link<T>, len: usize }` (lib.rs:59-61). -/
structure List (T : Type) where
  head : Link T
  len : Nat

/-- `List::new()` (lib.rs:134-137): empty list, length 0. -/
def List.new {T : Type} : List T := { head := none, len := 0 }

/-- `List::is_empty` (lib.rs:131): `self.head.is_none()`. -/
def List.is_empty {T : Type} (l : List T) : Bool := l.head.isNone

/-- `List::cons` (lib.rs:140-145): `node.next = self.head.take();
self.head = Some(node); self.len += 1`. -/
def List.cons {T : Type} (l : List T) (node : Node T) : List T :=
  { head := some (Node.mk node.elem l.head), len := l.len + 1 }

/-- `List::uncons` (lib.rs:147-153): detach the head node (its `next` taken
to `None`), promote its tail, decrement `len`; `None` and unchanged state if
empty. -/
def List.uncons {T : Type} (l : List T) : Option (Node T) × List T :=
  match l.head with
  | none => (none, l)
  | some (.mk e nx) => (some (Node.mk e none), { head := nx, len := l.len - 1 })

/-- `Stack::push` for `List` (lib.rs:104-106): `self.cons(Box::new(Node::new(elem)))`. -/
def List.push {T : Type} (l : List T) (elem : T) : List T :=
  l.cons (Node.new elem)

/-- `Stack::pop` for `List` (lib.rs:108-110): `self.uncons().map(|node| node.elem)`. -/
def List.pop {T : Type} (l : List T) : Option T × List T :=
  match l.uncons with
  | (n, l') => (n.map Node.elem, l')

/-- `Stack::peek` for `List` (lib.rs:113-115): `self.head.as_ref().map(|node| &node.elem)`. -/
def List.peek {T : Type} (l : List T) : Option T := l.head.map Node.elem

/-- Push each element of `vs` in order (`for i in iter { list.push(i) }`,
as in `FromIterator`/`Extend`, lib.rs:187-201). -/
def List.pushAll {T : Type} (l : List T) (vs : BList T) : List T :=
  vs.foldl (fun acc v => acc.push v) l

/-- `struct ZipList<T> { left: List<T>, right: List<T> }` (lib.rs:242-244). -/
structure ZipList (T : Type) where
  left : List T
  right : List T

/-- `ZipList::new()` (lib.rs:282-284): both sides empty. -/
def ZipList.new {T : Type} : ZipList T := { left := List.new, right := List.new }

/-- `ZipList::pop_left` (lib.rs:293): `self.left.pop()`. -/
def ZipList.pop_left {T : Type} (zl : ZipList T) : Option T × ZipList T :=
  match zl.left.pop with
  | (v, l') => (v, { zl with left := l' })

/-- `ZipList::pop_right` (lib.rs:300): `self.right.pop()`. -/
def ZipList.pop_right {T : Type} (zl : ZipList T) : Option T × ZipList T :=
  match zl.right.pop with
  | (v, r') => (v, { zl with right := r' })

/-- `ZipList::peek_left` (lib.rs:307): `self.left.peek()`. -/
def ZipList.peek_left {T : Type} (zl : ZipList T) : Option T := zl.left.peek

/-- `ZipList::peek_right` (lib.rs:314): `self.right.peek()`. -/
def ZipList.peek_right {T : Type} (zl : ZipList T) : Option T := zl.right.peek

/-- `ZipList::push_left` (lib.rs:335-338): `self.left.push(elem)`. -/
def ZipList.push_left {T : Type} (zl : ZipList T) (elem : T) : ZipList T :=
  { zl with left := zl.left.push elem }

/-- `ZipList::push_right` (lib.rs:341-344).  NOTE: the body is
`self.left.push(elem)` — it pushes onto the LEFT sub-list, exactly as
written in the source. -/
def ZipList.push_right {T : Type} (zl : ZipList T) (elem : T) : ZipList T :=
  { zl with left := zl.left.push elem }

/-- `ZipList::len` (lib.rs:347): `self.left.len() + self.right.len()`. -/
def ZipList.len {T : Type} (zl : ZipList T) : Nat := zl.left.len + zl.right.len

/-- `ZipList::is_empty` (lib.rs:350-352). -/
def ZipList.is_empty {T : Type} (zl : ZipList T) : Bool :=
  zl.left.is_empty && zl.right.is_empty

/-- `ZipList::move_left` (lib.rs:359-363):
`self.left.uncons().map(|n| self.right.cons(n)).is_some()`. -/
def ZipList.move_left {T : Type} (zl : ZipList T) : Bool × ZipList T :=
  match zl.left.uncons with
  | (some n, l') => (true, { left := l', right := zl.right.cons n })
  | (none, l') => (false, { zl with left := l' })

/-- `ZipList::move_right` (lib.rs:370-374): mirror of `move_left`. -/
def ZipList.move_right {T : Type} (zl : ZipList T) : Bool × ZipList T :=
  match zl.right.uncons with
  | (some n, r') => (true, { left := zl.left.cons n, right := r' })
  | (none, r') => (false, { zl with right := r' })

/-- `ZipList::seek_left` (lib.rs:381-387): `while amount < n && self.move_left()
{ amount += 1 }; amount`, rendered as recursion on the remaining budget
`n - amount`. -/
def ZipList.seek_left {T : Type} : ZipList T → Nat → Nat × ZipList T
  | zl, 0 => (0, zl)
  | zl, n + 1 =>
    match zl.move_left with
    | (true, zl') =>
      match zl'.seek_left n with
      | (amount, zl'') => (amount + 1, zl'')
    | (false, zl') => (0, zl')

/-- `ZipList::seek_right` (lib.rs:394-400): mirror of `seek_left`. -/
def ZipList.seek_right {T : Type} : ZipList T → Nat → Nat × ZipList T
  | zl, 0 => (0, zl)
  | zl, n + 1 =>
    match zl.move_right with
    | (true, zl') =>
      match zl'.seek_right n with
      | (amount, zl'') => (amount + 1, zl'')
    | (false, zl') => (0, zl')

/-- `struct Iter<'a, T> { next: Option<&'a Node<T>>, len: usize }`
(list/mod.rs:22-23). -/
structure Iter (T : Type) where
  next : Link T
  len : Nat

/-- `List::iter` (list/mod.rs:7-10). -/
def List.iter {T : Type} (l : List T) : Iter T := { next := l.head, len := l.len }

/-- `Iterator::next` for `Iter` (list/mod.rs:29-36): yield the current node's
element, advance the cursor to `node.next`, decrement `len`.  Named `step`
only because the struct field is already called `next`, as in the Rust
struct. -/
def Iter.step {T : Type} (it : Iter T) : Option T × Iter T :=
  match it.next with
  | none => (none, it)
  | some (.mk e nx) => (some e, { next := nx, len := it.len - 1 })

/-- The full element sequence produced by exhausting `Iter.step`; its two
equations are exactly the two branches of `step`. -/
def Iter.items {T : Type} : Iter T → BList T
  | ⟨none, _⟩ => []
  | ⟨some (.mk e nx), len⟩ => e :: Iter.items ⟨nx, len - 1⟩

/-- `struct IterMut<'a, T> { next: Option<&'a mut Node<T>>, len: usize }`
(list/mod.rs:49-50). -/
structure IterMut (T : Type) where
  next : Link T
  len : Nat

/-- `List::iter_mut` (list/mod.rs:12-15). -/
def List.iter_mut {T : Type} (l : List T) : IterMut T :=
  { next := l.head, len := l.len }

/-- `Iterator::next` for `IterMut` (list/mod.rs:56-63): same traversal as
`Iter`, yielding each element through a mutable borrow. -/
def IterMut.step {T : Type} (it : IterMut T) : Option T × IterMut T :=
  match it.next with
  | none => (none, it)
  | some (.mk e nx) => (some e, { next := nx, len := it.len - 1 })

/-- The full element sequence produced by exhausting `IterMut.step`. -/
def IterMut.items {T : Type} : IterMut T → BList T
  | ⟨none, _⟩ => []
  | ⟨some (.mk e nx), len⟩ => e :: IterMut.items ⟨nx, len - 1⟩

/-- `struct IntoIter<T>(List<T>)` (list/mod.rs:75). -/
structure IntoIter (T : Type) where
  list : List T

/-- `List::into_iter` (list/mod.rs:17-19). -/
def List.into_iter {T : Type} (l : List T) : IntoIter T := ⟨l⟩

/-- `Iterator::next` for `IntoIter` (list/mod.rs:79): `self.0.pop()`. -/
def IntoIter.step {T : Type} (it : IntoIter T) : Option T × IntoIter T :=
  match it.list.pop with
  | (v, l') => (v, ⟨l'⟩)

/-- The full element sequence produced by exhausting `IntoIter.step`, i.e. by
repeated `pop`. -/
def IntoIter.items {T : Type} (it : IntoIter T) : BList T :=
  match h : it.step with
  | (none, _) => []
  | (some e, it') => e :: it'.items
termination_by linkLen it.list.head
decreasing_by
  rcases it with ⟨⟨hd, len⟩⟩
  cases hd with
  | none => exact absurd h (by simp [IntoIter.step, List.pop, List.uncons])
  | some node =>
    cases node with
    | mk a nx =>
      rw [show IntoIter.step ⟨⟨some (Node.mk a nx), len⟩⟩
            = (some a, ⟨⟨nx, len - 1⟩⟩) from rfl] at h
      injection h with h1 h2
      subst h2
      cases nx <;> simp [linkLen, Node.length]

/-- Pop `k` times in succession, collecting the returned values. -/
def List.popN {T : Type} (l : List T) : Nat → BList (Option T) × List T
  | 0 => ([], l)
  | k + 1 =>
    match l.pop with
    | (v, l') =>
      match l'.popN k with
      | (vs, l'') => (v :: vs, l'')

/-- Mutating `List` operations (`Stack::push`/`Stack::pop`, lib.rs:103-121). -/
inductive LOp (T : Type) where
  | push (e : T)
  | pop

def List.applyOp {T : Type} (l : List T) : LOp T → List T
  | .push e => l.push e
  | .pop => (l.pop).2

def List.applyOps {T : Type} (l : List T) (ops : BList (LOp T)) : List T :=
  ops.foldl List.applyOp l

/-- Mutating `ZipList` operations (lib.rs:288-400). -/
inductive ZOp (T : Type) where
  | push_left (e : T)
  | push_right (e : T)
  | pop_left
  | pop_right
  | move_left
  | move_right
  | seek_left (n : Nat)
  | seek_right (n : Nat)

def ZipList.applyOp {T : Type} (zl : ZipList T) : ZOp T → ZipList T
  | .push_left e => zl.push_left e
  | .push_right e => zl.push_right e
  | .pop_left => (zl.pop_left).2
  | .pop_right => (zl.pop_right).2
  | .move_left => (zl.move_left).2
  | .move_right => (zl.move_right).2
  | .seek_left n => (zl.seek_left n).2
  | .seek_right n => (zl.seek_right n).2

def ZipList.applyOps {T : Type} (zl : ZipList T) (ops : BList (ZOp T)) : ZipList T :=
  ops.foldl ZipList.applyOp zl

/-- The `List` length invariant: the cached `len` field equals the number of
nodes reachable from `head`. -/
def List.WF {T : Type} (l : List T) : Prop := l.len = linkLen l.head

/-- Both sides of the zipper satisfy the `List` length invariant. -/
def ZipList.WF {T : Type} (zl : ZipList T) : Prop := zl.left.WF ∧ zl.right.WF

/-- Apply `f` to every element of a chain, preserving the node structure. -/
def Node.mapChain {T : Type} (f : T → T) : Node T → Node T
  | .mk e none => .mk (f e) none
  | .mk e (some n) => .mk (f e) (some (n.mapChain f))

/-- The effect on the borrowed list of running
`for x in list.iter_mut() { *x = f(*x) }`: each `IterMut::next`
(list/mod.rs:56-63) only advances the iterator's own cursor and yields a
mutable borrow of one element, so the loop body's per-element write is the
only way the list changes — its node structure and `len` are untouched. -/
def List.runIterMutFor {T : Type} (l : List T) (f : T → T) : List T :=
  { head := l.head.map (Node.mapChain f), len := l.len }

/-- `impl Drop for List` (lib.rs:234-238): `fn drop(&mut self) { for _ in self { } }`.
`for _ in self` with `self: &mut List<T>` resolves through
`IntoIterator for &'a mut List<T>` (lib.rs:165-172) to `self.iter_mut()`,
and the loop body is empty, so the per-element effect is the identity. -/
def List.dropBody {T : Type} (l : List T) : List T := l.runIterMutFor id

/-! ## Chain lemmas -/

/-- Induction over the finite node chain. -/
theorem link_ind {T : Type} (P : Link T → Prop)
    (h0 : P none) (h1 : ∀ e nx, P nx → P (some (Node.mk e nx))) :
    ∀ k : Link T, P k
  | none => h0
  | some (.mk e nx) => h1 e nx (link_ind P h0 h1 nx)

@[simp]
theorem linkElems_mk {T : Type} (e : T) (nx : Link T) :
    linkElems (some (Node.mk e nx)) = e :: linkElems nx := by
  cases nx <;> rfl

/-- `(Node.mk e nx).length` unfolds to `linkLen nx + 1`. -/
theorem linkLen_mk {T : Type} (e : T) (nx : Link T) :
    (Node.mk e nx).length = linkLen nx + 1 := by
  cases nx <;> rfl

@[simp]
theorem linkLen_some_mk {T : Type} (e : T) (nx : Link T) :
    linkLen (some (Node.mk e nx)) = linkLen nx + 1 := by
  cases nx <;> rfl

theorem linkLen_eq_elems_length {T : Type} (k : Link T) :
    linkLen k = (linkElems k).length := by
  induction k using link_ind with
  | h0 => rfl
  | h1 e nx ih => simp [ih]

theorem push_head {T : Type} (l : List T) (e : T) :
    (l.push e).head = some (Node.mk e l.head) := rfl

theorem pushAll_elems {T : Type} (vs : BList T) :
    ∀ l : List T, linkElems (l.pushAll vs).head = vs.reverse ++ linkElems l.head := by
  induction vs with
  | nil => intro l; rfl
  | cons v vs ih =>
    intro l
    show linkElems ((l.push v).pushAll vs).head = _
    rw [ih (l.push v), push_head, linkElems_mk]
    simp

theorem pushAll_len {T : Type} (vs : BList T) :
    ∀ l : List T, (l.pushAll vs).len = l.len + vs.length := by
  induction vs with
  | nil => intro l; rfl
  | cons v vs ih =>
    intro l
    show ((l.push v).pushAll vs).len = _
    rw [ih (l.push v)]
    show l.len + 1 + vs.length = _
    simp [BList]
    omega

/-! ## Iterator item sequences -/

theorem Iter.items_eq {T : Type} (k : Link T) :
    ∀ len, Iter.items ⟨k, len⟩ = linkElems k := by
  induction k using link_ind with
  | h0 => intro len; rw [Iter.items]; rfl
  | h1 e nx ih =>
    intro len
    show Iter.items ⟨some (Node.mk e nx), len⟩ = _
    rw [Iter.items, ih (len - 1), linkElems_mk]

theorem IterMut.items_eq_mut {T : Type} (k : Link T) :
    ∀ len, IterMut.items ⟨k, len⟩ = linkElems k := by
  induction k using link_ind with
  | h0 => intro len; rw [IterMut.items]; rfl
  | h1 e nx ih =>
    intro len
    show IterMut.items ⟨some (Node.mk e nx), len⟩ = _
    rw [IterMut.items, ih (len - 1), linkElems_mk]

theorem IntoIter.items_eq_into {T : Type} (k : Link T) :
    ∀ len, IntoIter.items ⟨⟨k, len⟩⟩ = linkElems k := by
  induction k using link_ind with
  | h0 => intro len; rw [IntoIter.items]; rfl
  | h1 e nx ih =>
    intro len
    rw [IntoIter.items]
    show e :: IntoIter.items ⟨⟨nx, len - 1⟩⟩ = _
    rw [ih (len - 1), linkElems_mk]

/-! ## Preservation of the length invariant -/

theorem List.WF_new {T : Type} : (List.new (T := T)).WF := rfl

theorem List.WF.cons {T : Type} {l : List T} (h : l.WF) (nd : Node T) :
    (l.cons nd).WF := by
  show l.len + 1 = linkLen (some (Node.mk nd.elem l.head))
  rw [linkLen_some_mk, h]

theorem List.WF.push {T : Type} {l : List T} (h : l.WF) (e : T) :
    (l.push e).WF := h.cons _

theorem List.WF.uncons {T : Type} {l : List T} (h : l.WF) :
    (l.uncons).2.WF := by
  rcases l with ⟨hd, len⟩
  cases hd with
  | none => exact h
  | some node =>
    cases node with
    | mk e nx =>
      have hlen : len = linkLen nx + 1 := by
        simpa [List.WF] using h
      show len - 1 = linkLen nx
      omega

theorem List.WF.pop {T : Type} {l : List T} (h : l.WF) : (l.pop).2.WF :=
  h.uncons

theorem List.WF.head_some_len {T : Type} {l : List T} (h : l.WF)
    {nd : Node T} (hh : l.head = some nd) : 1 ≤ l.len := by
  rcases nd with ⟨e, nx⟩
  rw [List.WF, hh, linkLen_some_mk] at h
  omega

theorem List.WF.head_none_iff {T : Type} {l : List T} (h : l.WF) :
    l.head = none ↔ l.len = 0 := by
  rcases l with ⟨hd, len⟩
  cases hd with
  | none =>
    simp [List.WF, linkLen] at h
    simp [h]
  | some node =>
    rcases node with ⟨e, nx⟩
    rw [List.WF, linkLen_some_mk] at h
    constructor
    · intro hc; exact absurd hc (by simp)
    · intro hc; omega

theorem List.is_empty_iff {T : Type} (l : List T) :
    l.is_empty = true ↔ l.head = none := by
  simp [List.is_empty, Option.isNone_iff_eq_none]

theorem ZipList.WF_new_zip {T : Type} : (ZipList.new (T := T)).WF := ⟨rfl, rfl⟩

theorem ZipList.WF.push_left {T : Type} {zl : ZipList T} (h : zl.WF) (e : T) :
    (zl.push_left e).WF := ⟨h.1.push e, h.2⟩

theorem ZipList.WF.push_right {T : Type} {zl : ZipList T} (h : zl.WF) (e : T) :
    (zl.push_right e).WF := ⟨h.1.push e, h.2⟩

theorem ZipList.WF.pop_left {T : Type} {zl : ZipList T} (h : zl.WF) :
    ((zl.pop_left).2).WF := ⟨h.1.pop, h.2⟩

theorem ZipList.WF.pop_right {T : Type} {zl : ZipList T} (h : zl.WF) :
    ((zl.pop_right).2).WF := ⟨h.1, h.2.pop⟩

theorem ZipList.WF.move_left {T : Type} {zl : ZipList T} (h : zl.WF) :
    ((zl.move_left).2).WF := by
  rcases zl with ⟨⟨lh, ll⟩, r⟩
  cases lh with
  | none => exact h
  | some node =>
    rcases node with ⟨e, nx⟩
    refine ⟨?_, h.2.cons _⟩
    have hll : ll = linkLen nx + 1 := by simpa [List.WF] using h.1
    show ll - 1 = linkLen nx
    omega

theorem ZipList.WF.move_right {T : Type} {zl : ZipList T} (h : zl.WF) :
    ((zl.move_right).2).WF := by
  rcases zl with ⟨l, ⟨rh, rl⟩⟩
  cases rh with
  | none => exact h
  | some node =>
    rcases node with ⟨e, nx⟩
    refine ⟨h.1.cons _, ?_⟩
    have hrl : rl = linkLen nx + 1 := by simpa [List.WF] using h.2
    show rl - 1 = linkLen nx
    omega

/-! ## Seek: iteration count and length transfer -/

/-- The number of successful single-step moves performed by `seek_left` is
exactly `min n` (number of nodes on the left side), for every state — each
iteration consumes one left node. -/
theorem seek_left_count {T : Type} (n : Nat) :
    ∀ zl : ZipList T, (zl.seek_left n).1 = min n (linkLen zl.left.head) := by
  induction n with
  | zero => intro zl; simp [ZipList.seek_left]
  | succ n ih =>
    rintro ⟨⟨lh, ll⟩, ⟨rh, rl⟩⟩
    cases lh with
    | none => simp [ZipList.seek_left, ZipList.move_left, List.uncons, linkLen]
    | some node =>
      rcases node with ⟨e, nx⟩
      show (match (ZipList.seek_left ⟨⟨nx, ll - 1⟩, ⟨some (Node.mk e rh), rl + 1⟩⟩ n) with
            | (amount, zl'') => (amount + 1, zl'')).1 = _
      have := ih ⟨⟨nx, ll - 1⟩, ⟨some (Node.mk e rh), rl + 1⟩⟩
      rcases hseek : ZipList.seek_left (⟨⟨nx, ll - 1⟩, ⟨some (Node.mk e rh), rl + 1⟩⟩ : ZipList T) n
        with ⟨amount, zl''⟩
      rw [hseek] at this
      simp only [hseek]
      simp only [linkLen_some_mk]
      simp at this
      omega

theorem seek_right_count {T : Type} (n : Nat) :
    ∀ zl : ZipList T, (zl.seek_right n).1 = min n (linkLen zl.right.head) := by
  induction n with
  | zero => intro zl; simp [ZipList.seek_right]
  | succ n ih =>
    rintro ⟨⟨lh, ll⟩, ⟨rh, rl⟩⟩
    cases rh with
    | none => simp [ZipList.seek_right, ZipList.move_right, List.uncons, linkLen]
    | some node =>
      rcases node with ⟨e, nx⟩
      show (match (ZipList.seek_right ⟨⟨some (Node.mk e lh), ll + 1⟩, ⟨nx, rl - 1⟩⟩ n) with
            | (amount, zl'') => (amount + 1, zl'')).1 = _
      have := ih ⟨⟨some (Node.mk e lh), ll + 1⟩, ⟨nx, rl - 1⟩⟩
      rcases hseek : ZipList.seek_right (⟨⟨some (Node.mk e lh), ll + 1⟩, ⟨nx, rl - 1⟩⟩ : ZipList T) n
        with ⟨amount, zl''⟩
      rw [hseek] at this
      simp only [hseek]
      simp only [linkLen_some_mk]
      simp at this
      omega

/-- One unfolding step of `seek_left` when the left side has a head node. -/
theorem seek_left_succ {T : Type} (n ll rl : Nat) (e : T) (nx rh : Link T) :
    ZipList.seek_left (⟨⟨some (Node.mk e nx), ll⟩, ⟨rh, rl⟩⟩ : ZipList T) (n + 1)
      = ((ZipList.seek_left (⟨⟨nx, ll - 1⟩, ⟨some (Node.mk e rh), rl + 1⟩⟩ : ZipList T) n).1 + 1,
         (ZipList.seek_left (⟨⟨nx, ll - 1⟩, ⟨some (Node.mk e rh), rl + 1⟩⟩ : ZipList T) n).2) := by
  show (match ZipList.seek_left (⟨⟨nx, ll - 1⟩, ⟨some (Node.mk e rh), rl + 1⟩⟩ : ZipList T) n with
        | (amount, zl'') => (amount + 1, zl'')) = _
  rcases ZipList.seek_left (⟨⟨nx, ll - 1⟩, ⟨some (Node.mk e rh), rl + 1⟩⟩ : ZipList T) n with ⟨a, z⟩
  rfl

/-- One unfolding step of `seek_left` when the left side is exhausted. -/
theorem seek_left_succ_none {T : Type} (n ll rl : Nat) (rh : Link T) :
    ZipList.seek_left (⟨⟨none, ll⟩, ⟨rh, rl⟩⟩ : ZipList T) (n + 1)
      = (0, ⟨⟨none, ll⟩, ⟨rh, rl⟩⟩) := rfl

/-- One unfolding step of `seek_right` when the right side has a head node. -/
theorem seek_right_succ {T : Type} (n ll rl : Nat) (e : T) (nx lh : Link T) :
    ZipList.seek_right (⟨⟨lh, ll⟩, ⟨some (Node.mk e nx), rl⟩⟩ : ZipList T) (n + 1)
      = ((ZipList.seek_right (⟨⟨some (Node.mk e lh), ll + 1⟩, ⟨nx, rl - 1⟩⟩ : ZipList T) n).1 + 1,
         (ZipList.seek_right (⟨⟨some (Node.mk e lh), ll + 1⟩, ⟨nx, rl - 1⟩⟩ : ZipList T) n).2) := by
  show (match ZipList.seek_right (⟨⟨some (Node.mk e lh), ll + 1⟩, ⟨nx, rl - 1⟩⟩ : ZipList T) n with
        | (amount, zl'') => (amount + 1, zl'')) = _
  rcases ZipList.seek_right (⟨⟨some (Node.mk e lh), ll + 1⟩, ⟨nx, rl - 1⟩⟩ : ZipList T) n with ⟨a, z⟩
  rfl

/-- One unfolding step of `seek_right` when the right side is exhausted. -/
theorem seek_right_succ_none {T : Type} (n ll rl : Nat) (lh : Link T) :
    ZipList.seek_right (⟨⟨lh, ll⟩, ⟨none, rl⟩⟩ : ZipList T) (n + 1)
      = (0, ⟨⟨lh, ll⟩, ⟨none, rl⟩⟩) := rfl

/-- Each successful step of `seek_left` decrements the left `len` field and
increments the right one, so after the loop the two fields have moved by
exactly the returned amount. -/
theorem seek_left_lens {T : Type} (n : Nat) :
    ∀ zl : ZipList T,
      (zl.seek_left n).2.left.len = zl.left.len - (zl.seek_left n).1 ∧
      (zl.seek_left n).2.right.len = zl.right.len + (zl.seek_left n).1 := by
  induction n with
  | zero => intro zl; simp [ZipList.seek_left]
  | succ n ih =>
    rintro ⟨⟨lh, ll⟩, ⟨rh, rl⟩⟩
    cases lh with
    | none => rw [seek_left_succ_none]; simp
    | some node =>
      rcases node with ⟨e, nx⟩
      rw [seek_left_succ]
      obtain ⟨h1, h2⟩ := ih ⟨⟨nx, ll - 1⟩, ⟨some (Node.mk e rh), rl + 1⟩⟩
      constructor
      · simp only [h1]; omega
      · simp only [h2]; omega

theorem seek_right_lens {T : Type} (n : Nat) :
    ∀ zl : ZipList T,
      (zl.seek_right n).2.right.len = zl.right.len - (zl.seek_right n).1 ∧
      (zl.seek_right n).2.left.len = zl.left.len + (zl.seek_right n).1 := by
  induction n with
  | zero => intro zl; simp [ZipList.seek_right]
  | succ n ih =>
    rintro ⟨⟨lh, ll⟩, ⟨rh, rl⟩⟩
    cases rh with
    | none => rw [seek_right_succ_none]; simp
    | some node =>
      rcases node with ⟨e, nx⟩
      rw [seek_right_succ]
      obtain ⟨h1, h2⟩ := ih ⟨⟨some (Node.mk e lh), ll + 1⟩, ⟨nx, rl - 1⟩⟩
      constructor
      · simp only [h1]; omega
      · simp only [h2]; omega

theorem ZipList.WF.seek_left {T : Type} (n : Nat) :
    ∀ zl : ZipList T, zl.WF → ((zl.seek_left n).2).WF := by
  induction n with
  | zero => intro zl h; exact h
  | succ n ih =>
    rintro ⟨⟨lh, ll⟩, ⟨rh, rl⟩⟩ h
    cases lh with
    | none => exact h
    | some node =>
      rcases node with ⟨e, nx⟩
      show (match (ZipList.seek_left ⟨⟨nx, ll - 1⟩, ⟨some (Node.mk e rh), rl + 1⟩⟩ n) with
            | (amount, zl'') => (amount + 1, zl'')).2.WF
      have hwf' : (⟨⟨nx, ll - 1⟩, ⟨some (Node.mk e rh), rl + 1⟩⟩ : ZipList T).WF :=
        @ZipList.WF.move_left T ⟨⟨some (Node.mk e nx), ll⟩, ⟨rh, rl⟩⟩ h
      have := ih ⟨⟨nx, ll - 1⟩, ⟨some (Node.mk e rh), rl + 1⟩⟩ hwf'
      rcases hseek : ZipList.seek_left (⟨⟨nx, ll - 1⟩, ⟨some (Node.mk e rh), rl + 1⟩⟩ : ZipList T) n
        with ⟨amount, zl''⟩
      rw [hseek] at this
      simp only [hseek]
      exact this

theorem ZipList.WF.seek_right {T : Type} (n : Nat) :
    ∀ zl : ZipList T, zl.WF → ((zl.seek_right n).2).WF := by
  induction n with
  | zero => intro zl h; exact h
  | succ n ih =>
    rintro ⟨⟨lh, ll⟩, ⟨rh, rl⟩⟩ h
    cases rh with
    | none => exact h
    | some node =>
      rcases node with ⟨e, nx⟩
      show (match (ZipList.seek_right ⟨⟨some (Node.mk e lh), ll + 1⟩, ⟨nx, rl - 1⟩⟩ n) with
            | (amount, zl'') => (amount + 1, zl'')).2.WF
      have hwf' : (⟨⟨some (Node.mk e lh), ll + 1⟩, ⟨nx, rl - 1⟩⟩ : ZipList T).WF :=
        @ZipList.WF.move_right T ⟨⟨lh, ll⟩, ⟨some (Node.mk e nx), rl⟩⟩ h
      have := ih ⟨⟨some (Node.mk e lh), ll + 1⟩, ⟨nx, rl - 1⟩⟩ hwf'
      rcases hseek : ZipList.seek_right (⟨⟨some (Node.mk e lh), ll + 1⟩, ⟨nx, rl - 1⟩⟩ : ZipList T) n
        with ⟨amount, zl''⟩
      rw [hseek] at this
      simp only [hseek]
      exact this

/-! ## Invariant under arbitrary operation sequences -/

theorem List.WF.applyOp_list {T : Type} {l : List T} (h : l.WF) (op : LOp T) :
    (l.applyOp op).WF := by
  cases op with
  | push e => exact h.push e
  | pop => exact h.pop

theorem List.WF.applyOps_list {T : Type} (ops : BList (LOp T)) :
    ∀ {l : List T}, l.WF → (l.applyOps ops).WF := by
  induction ops with
  | nil => intro l h; exact h
  | cons op ops ih => intro l h; exact ih (h.applyOp_list op)

theorem ZipList.WF.applyOp_zip {T : Type} {zl : ZipList T} (h : zl.WF) (op : ZOp T) :
    (zl.applyOp op).WF := by
  cases op with
  | push_left e => exact h.push_left e
  | push_right e => exact h.push_right e
  | pop_left => exact h.pop_left
  | pop_right => exact h.pop_right
  | move_left => exact h.move_left
  | move_right => exact h.move_right
  | seek_left n => exact ZipList.WF.seek_left n _ h
  | seek_right n => exact ZipList.WF.seek_right n _ h

theorem ZipList.WF.applyOps_zip {T : Type} (ops : BList (ZOp T)) :
    ∀ {zl : ZipList T}, zl.WF → (zl.applyOps ops).WF := by
  induction ops with
  | nil => intro zl h; exact h
  | cons op ops ih => intro zl h; exact ih (h.applyOp_zip op)

/-! ## Repeated pop -/

theorem pop_head_none {T : Type} {l : List T} (h : l.head = none) :
    (l.pop).1 = none := by
  rcases l with ⟨hd, len⟩
  cases h
  rfl

theorem popN_full {T : Type} (l : List T) :
    (l.popN (linkLen l.head)).1 = (linkElems l.head).map some ∧
    (l.popN (linkLen l.head)).2.head = none := by
  rcases l with ⟨k, len⟩
  induction k using link_ind generalizing len with
  | h0 => simp [List.popN, linkLen, linkElems]
  | h1 e nx ih =>
    show ((⟨some (Node.mk e nx), len⟩ : List T).popN (linkLen (some (Node.mk e nx)))).1 = _ ∧ _
    rw [linkLen_some_mk]
    have := ih (len - 1)
    rcases hp : (⟨nx, len - 1⟩ : List T).popN (linkLen nx) with ⟨vs, l''⟩
    rw [hp] at this
    simp only [List.popN, List.pop, List.uncons, hp]
    simp at this ⊢
    exact ⟨⟨rfl, this.1⟩, this.2⟩

/-! ## The Drop body -/

theorem Node.mapChain_id {T : Type} : ∀ n : Node T, n.mapChain id = n
  | .mk e none => rfl
  | .mk e (some n) => by
    show Node.mk (id e) (some (n.mapChain id)) = _
    rw [Node.mapChain_id n]
    rfl

theorem dropBody_eq {T : Type} (l : List T) : l.dropBody = l := by
  rcases l with ⟨k, len⟩
  cases k with
  | none => rfl
  | some n =>
    show (⟨some (n.mapChain id), len⟩ : List T) = _
    rw [Node.mapChain_id]

theorem List.iter_items {T : Type} (l : List T) :
    (l.iter).items = linkElems l.head :=
  Iter.items_eq l.head l.len

theorem List.iter_mut_items {T : Type} (l : List T) :
    (l.iter_mut).items = linkElems l.head :=
  IterMut.items_eq_mut l.head l.len

theorem List.into_iter_items {T : Type} (l : List T) :
    ((l.into_iter)).items = linkElems l.head :=
  IntoIter.items_eq_into l.head l.len

/-! ## The claims -/

/-- C1: the claim says `push_right(e)` makes `e` the element immediately
right-adjacent to the cursor (afterwards `peek_right()` returns `e`, the
right side grows by one, the left side is unchanged).  The body of
`ZipList::push_right` (lib.rs:342) is `self.left.push(elem)`: it pushes onto
the LEFT sub-list, contradicting its own doc comment "Push `elem` to the
right of the zipper".  Evaluated at the failing input — an empty `ZipList`
followed by `push_right(1)` — `peek_right` is `none`, the right side still
has length 0, and the element sits on the left; in general `push_right`
never touches the right sub-list. -/
theorem c1_push_right_pushes_left :
    ((ZipList.new : ZipList Nat).push_right 1).peek_right = none ∧
    ((ZipList.new : ZipList Nat).push_right 1).right.len = 0 ∧
    ((ZipList.new : ZipList Nat).push_right 1).left.len = 1 ∧
    ((ZipList.new : ZipList Nat).push_right 1).peek_left = some 1 ∧
    ∀ (T : Type) (zl : ZipList T) (e : T), (zl.push_right e).right = zl.right :=
  ⟨rfl, rfl, rfl, rfl, fun _ _ _ => rfl⟩

/-- C2: under the length invariant, `seek_left n` returns `min n L` where
`L = left.len`, and after the call the left `len` has decreased and the
right `len` has increased by exactly the returned amount; symmetrically for
`seek_right`. -/
theorem c2_seek_clamps {T : Type} (zl : ZipList T) (n : Nat) (h : zl.WF) :
    ((zl.seek_left n).1 = min n zl.left.len ∧
     (zl.seek_left n).2.left.len = zl.left.len - (zl.seek_left n).1 ∧
     (zl.seek_left n).2.right.len = zl.right.len + (zl.seek_left n).1) ∧
    ((zl.seek_right n).1 = min n zl.right.len ∧
     (zl.seek_right n).2.right.len = zl.right.len - (zl.seek_right n).1 ∧
     (zl.seek_right n).2.left.len = zl.left.len + (zl.seek_right n).1) := by
  obtain ⟨h1, h2⟩ := h
  refine ⟨⟨?_, (seek_left_lens n zl).1, (seek_left_lens n zl).2⟩,
          ⟨?_, (seek_right_lens n zl).1, (seek_right_lens n zl).2⟩⟩
  · rw [seek_left_count n zl, h1]
  · rw [seek_right_count n zl, h2]

/-- Witness for C2 at the concrete state built by `push_left 1; push_left 2`
(left length 2, right length 0) and `n = 5`. -/
theorem c2_witness :
    ((ZipList.new.push_left (1 : Nat)).push_left 2).WF ∧
    (((((ZipList.new.push_left (1 : Nat)).push_left 2).seek_left 5).1
        = min 5 ((ZipList.new.push_left (1 : Nat)).push_left 2).left.len ∧
      ((((ZipList.new.push_left (1 : Nat)).push_left 2).seek_left 5).2).left.len
        = ((ZipList.new.push_left (1 : Nat)).push_left 2).left.len
            - ((((ZipList.new.push_left (1 : Nat)).push_left 2).seek_left 5)).1 ∧
      ((((ZipList.new.push_left (1 : Nat)).push_left 2).seek_left 5).2).right.len
        = ((ZipList.new.push_left (1 : Nat)).push_left 2).right.len
            + ((((ZipList.new.push_left (1 : Nat)).push_left 2).seek_left 5)).1) ∧
     ((((ZipList.new.push_left (1 : Nat)).push_left 2).seek_right 5).1
        = min 5 ((ZipList.new.push_left (1 : Nat)).push_left 2).right.len ∧
      ((((ZipList.new.push_left (1 : Nat)).push_left 2).seek_right 5).2).right.len
        = ((ZipList.new.push_left (1 : Nat)).push_left 2).right.len
            - ((((ZipList.new.push_left (1 : Nat)).push_left 2).seek_right 5)).1 ∧
      ((((ZipList.new.push_left (1 : Nat)).push_left 2).seek_right 5).2).left.len
        = ((ZipList.new.push_left (1 : Nat)).push_left 2).left.len
            + ((((ZipList.new.push_left (1 : Nat)).push_left 2).seek_right 5)).1)) :=
  ⟨⟨rfl, rfl⟩, c2_seek_clamps ((ZipList.new.push_left (1 : Nat)).push_left 2) 5 ⟨rfl, rfl⟩⟩

/-- C3: the claim says the `Drop` implementation repeatedly detaches and
drops the head node until none remain, so that after the `Drop` body runs
the head link is `none`.  The actual body (lib.rs:234-238) is
`for _ in self { }`, which resolves through `IntoIterator for &'a mut List`
(lib.rs:165-172) to `self.iter_mut()`: the loop only walks borrowed nodes
and detaches nothing, so the list — and in particular its head link — is
completely unchanged by the `Drop` body (teardown is left to the
compiler-generated recursive drop of the `head` field, exactly the naive
recursive destruction the spec forbids).  Evaluated at the failing input, a
one-element list: the head is still a node after the body runs. -/
theorem c3_drop_body_detaches_nothing :
    (∀ (T : Type) (l : List T), l.dropBody = l) ∧
    ((List.new.push (1 : Nat)).dropBody).head ≠ none :=
  ⟨fun _ l => dropBody_eq l, fun hcontra => by
    rw [dropBody_eq] at hcontra
    exact Option.noConfusion hcontra⟩

/-- C4: starting from `new()`, every sequence of push/pop (for `List`) and
push/pop/move/seek (for `ZipList`) operations preserves the state invariant:
the cached `len` equals the number of nodes reachable from `head`,
`is_empty()` holds iff `head` is none iff `len() == 0`, and
`ZipList::len()` equals `left.len() + right.len()`, on both sides of which
the cached lengths are truthful. -/
theorem c4_length_invariant {T : Type} (ops : BList (LOp T)) (zops : BList (ZOp T)) :
    ((List.applyOps List.new ops).len = linkLen (List.applyOps List.new ops).head ∧
     ((List.applyOps List.new ops).is_empty = true ↔ (List.applyOps List.new ops).head = none) ∧
     ((List.applyOps List.new ops).head = none ↔ (List.applyOps List.new ops).len = 0)) ∧
    ((ZipList.applyOps ZipList.new zops).len
        = (ZipList.applyOps ZipList.new zops).left.len
            + (ZipList.applyOps ZipList.new zops).right.len ∧
     (ZipList.applyOps ZipList.new zops).left.len
        = linkLen (ZipList.applyOps ZipList.new zops).left.head ∧
     (ZipList.applyOps ZipList.new zops).right.len
        = linkLen (ZipList.applyOps ZipList.new zops).right.head) := by
  have hl : (List.applyOps List.new ops).WF := List.WF.applyOps_list ops List.WF_new
  have hz : (ZipList.applyOps ZipList.new zops).WF := ZipList.WF.applyOps_zip zops ZipList.WF_new_zip
  exact ⟨⟨hl, List.is_empty_iff _, hl.head_none_iff⟩, ⟨rfl, hz.1, hz.2⟩⟩

/-- C5: pushing `v1..vn` in order and then popping `n` times yields
`Some vn, ..., Some v1` — the exact reverse of push order — and the next
`pop` returns `none`. -/
theorem c5_pop_reverses_pushes {T : Type} (vs : BList T) :
    (((List.new (T := T)).pushAll vs).popN vs.length).1 = vs.reverse.map some ∧
    ((((List.new (T := T)).pushAll vs).popN vs.length).2).pop.1 = none := by
  have hchain : linkElems ((List.new (T := T)).pushAll vs).head = vs.reverse := by
    rw [pushAll_elems vs List.new]
    simp [List.new, linkElems]
  have hlen : linkLen ((List.new (T := T)).pushAll vs).head = vs.length := by
    rw [linkLen_eq_elems_length, hchain]
    simp
  have h := popN_full ((List.new (T := T)).pushAll vs)
  rw [hlen, hchain] at h
  exact ⟨h.1, pop_head_none h.2⟩

/-- C6: under the length invariant, on a `ZipList` with non-empty left side,
`move_left()` succeeds and `move_right()` afterwards restores the original
state exactly (same node chains, same `len` fields on both sides);
symmetrically with the two moves exchanged when the right side is
non-empty. -/
theorem c6_move_round_trip {T : Type} (zl : ZipList T) (h : zl.WF) :
    (zl.left.is_empty = false →
      (zl.move_left).1 = true ∧ (zl.move_left).2.move_right = (true, zl)) ∧
    (zl.right.is_empty = false →
      (zl.move_right).1 = true ∧ (zl.move_right).2.move_left = (true, zl)) := by
  obtain ⟨h1, h2⟩ := h
  rcases zl with ⟨⟨lh, ll⟩, ⟨rh, rl⟩⟩
  constructor
  · intro hne
    cases lh with
    | none => simp [List.is_empty] at hne
    | some node =>
      rcases node with ⟨e, nx⟩
      have hll : ll = linkLen nx + 1 := by
        simpa [List.WF] using h1
      refine ⟨rfl, ?_⟩
      show (true, (⟨⟨some (Node.mk e nx), ll - 1 + 1⟩, ⟨rh, rl⟩⟩ : ZipList T))
          = (true, (⟨⟨some (Node.mk e nx), ll⟩, ⟨rh, rl⟩⟩ : ZipList T))
      have e1 : ll - 1 + 1 = ll := by omega
      rw [e1]
  · intro hne
    cases rh with
    | none => simp [List.is_empty] at hne
    | some node =>
      rcases node with ⟨e, nx⟩
      have hrl : rl = linkLen nx + 1 := by
        simpa [List.WF] using h2
      refine ⟨rfl, ?_⟩
      show (true, (⟨⟨lh, ll⟩, ⟨some (Node.mk e nx), rl - 1 + 1⟩⟩ : ZipList T))
          = (true, (⟨⟨lh, ll⟩, ⟨some (Node.mk e nx), rl⟩⟩ : ZipList T))
      have e1 : rl - 1 + 1 = rl := by omega
      rw [e1]

/-- Witness for C6 at a concrete one-element-per-side state. -/
theorem c6_witness :
    (⟨⟨some (Node.mk 1 none), 1⟩, ⟨some (Node.mk 2 none), 1⟩⟩ : ZipList Nat).WF ∧
    (((⟨⟨some (Node.mk 1 none), 1⟩, ⟨some (Node.mk 2 none), 1⟩⟩ : ZipList Nat).move_left).1 = true ∧
      ((⟨⟨some (Node.mk 1 none), 1⟩, ⟨some (Node.mk 2 none), 1⟩⟩ : ZipList Nat).move_left).2.move_right
        = (true, ⟨⟨some (Node.mk 1 none), 1⟩, ⟨some (Node.mk 2 none), 1⟩⟩)) ∧
    (((⟨⟨some (Node.mk 1 none), 1⟩, ⟨some (Node.mk 2 none), 1⟩⟩ : ZipList Nat).move_right).1 = true ∧
      ((⟨⟨some (Node.mk 1 none), 1⟩, ⟨some (Node.mk 2 none), 1⟩⟩ : ZipList Nat).move_right).2.move_left
        = (true, ⟨⟨some (Node.mk 1 none), 1⟩, ⟨some (Node.mk 2 none), 1⟩⟩)) :=
  ⟨⟨rfl, rfl⟩,
   (c6_move_round_trip
     (⟨⟨some (Node.mk 1 none), 1⟩, ⟨some (Node.mk 2 none), 1⟩⟩ : ZipList Nat)
     ⟨rfl, rfl⟩).1 rfl,
   (c6_move_round_trip
     (⟨⟨some (Node.mk 1 none), 1⟩, ⟨some (Node.mk 2 none), 1⟩⟩ : ZipList Nat)
     ⟨rfl, rfl⟩).2 rfl⟩

/-- C7: `move_left()` on an empty left side (resp. `move_right()` on an
empty right side) returns `false` and leaves the whole state — both sides'
contents and lengths — unchanged, and `pop_left()`/`pop_right()` on an empty
corresponding side return `none` and leave the state unchanged. -/
theorem c7_empty_boundary {T : Type} (zl : ZipList T) :
    (zl.left.is_empty = true →
      zl.move_left = (false, zl) ∧ zl.pop_left = (none, zl)) ∧
    (zl.right.is_empty = true →
      zl.move_right = (false, zl) ∧ zl.pop_right = (none, zl)) := by
  rcases zl with ⟨⟨lh, ll⟩, ⟨rh, rl⟩⟩
  constructor
  · intro he
    have hnone : lh = none := by
      simpa [List.is_empty, Option.isNone_iff_eq_none] using he
    subst hnone
    exact ⟨rfl, rfl⟩
  · intro he
    have hnone : rh = none := by
      simpa [List.is_empty, Option.isNone_iff_eq_none] using he
    subst hnone
    exact ⟨rfl, rfl⟩

/-- Witness for C7 at the empty `ZipList`. -/
theorem c7_witness :
    (ZipList.new : ZipList Nat).left.is_empty = true ∧
    ((ZipList.new : ZipList Nat).move_left = (false, ZipList.new) ∧
      (ZipList.new : ZipList Nat).pop_left = (none, ZipList.new)) ∧
    ((ZipList.new : ZipList Nat).move_right = (false, ZipList.new) ∧
      (ZipList.new : ZipList Nat).pop_right = (none, ZipList.new)) :=
  ⟨rfl, (c7_empty_boundary _).1 rfl, (c7_empty_boundary _).2 rfl⟩

/-- C8: for a list built by pushing `v1..vn` in order, all three iteration
modes — borrowing `iter()`, mutably-borrowing `iter_mut()` and consuming
`into_iter()` — yield the elements in head-to-tail order `vn, ..., v1`, the
reverse of push order; and the consuming iterator is equivalent to repeated
`pop()`: popping as many times as there are nodes yields exactly its item
sequence. -/
theorem c8_iteration_order {T : Type} (vs : BList T) (l : List T) :
    (((List.new (T := T)).pushAll vs).iter).items = vs.reverse ∧
    (((List.new (T := T)).pushAll vs).iter_mut).items = vs.reverse ∧
    (((List.new (T := T)).pushAll vs).into_iter).items = vs.reverse ∧
    (l.popN (linkLen l.head)).1 = ((l.into_iter).items).map some := by
  have hchain : linkElems ((List.new (T := T)).pushAll vs).head = vs.reverse := by
    rw [pushAll_elems vs List.new]
    simp [List.new, linkElems]
  refine ⟨?_, ?_, ?_, ?_⟩
  · rw [List.iter_items, hchain]
  · rw [List.iter_mut_items, hchain]
  · rw [List.into_iter_items, hchain]
  · rw [List.into_iter_items]
    exact (popN_full l).1

/-- C9: the fallible reads signal absence with an `Option` instead of
failing, and the internal `len -= 1` in `uncons` cannot underflow: it runs
only when a head node exists, in which case the length invariant forces
`len >= 1`, so the decrement is exact (`uncons` leaves `len + 1` equal to
the old length).  All embedded operations are total Lean functions, mirroring
the absence of panicking paths in the source. -/
theorem c9_no_underflow {T : Type} (l : List T) (h : l.WF) :
    (∀ nd : Node T, l.head = some nd →
      1 ≤ l.len ∧ (l.uncons).2.len + 1 = l.len) ∧
    (l.head = none → l.pop = (none, l) ∧ l.peek = none) := by
  obtain ⟨hd, len⟩ := l
  constructor
  · rintro ⟨e, nx⟩ rfl
    have h1 : 1 ≤ len := by
      simp only [List.WF, linkLen_some_mk] at h
      omega
    refine ⟨h1, ?_⟩
    show len - 1 + 1 = len
    omega
  · rintro rfl
    exact ⟨rfl, rfl⟩

/-- Witness for C9 at the one-element list `push(1)`. -/
theorem c9_witness :
    (List.new.push (1 : Nat)).WF ∧
    (1 ≤ (List.new.push (1 : Nat)).len ∧
      ((List.new.push (1 : Nat)).uncons).2.len + 1 = (List.new.push (1 : Nat)).len) :=
  ⟨rfl, (c9_no_underflow (List.new.push (1 : Nat)) rfl).1 (Node.mk 1 none) rfl⟩

/-- C10: `seek_left`/`seek_right` terminate for every `n` and every state —
in the embedding the loop is total recursion on the budget `n` — and the
number of loop iterations (the returned amount) is exactly
`min n` (number of nodes on the source side), since each iteration requires
a successful single-step move, which consumes one node of the source side. -/
theorem c10_seek_bounded {T : Type} (zl : ZipList T) (n : Nat) :
    (zl.seek_left n).1 = min n (linkLen zl.left.head) ∧
    (zl.seek_right n).1 = min n (linkLen zl.right.head) :=
  ⟨seek_left_count n zl, seek_right_count n zl⟩

end AnZipper
